import Mathlib

/-
  Verification development for the ISLa constraint-directed derivation-tree
  solver (input_constraints/gensearch_2.py) and its three-valued evaluator
  (src/isla/evaluator.py).

  The Python source is embedded shallowly: pure functions become Lean
  functions, Python `assert` statements and uncaught exceptions become
  `Except Unit` errors, and the external z3 solver / Earley parser are
  abstracted as explicit oracle parameters.  Definitions carry the names of
  the source functions where Lean permits.  The derivation-tree and formula
  data model of the `input_constraints.isla` module is not part of the
  source tree (only its callers are); those definitions are modelled from
  the specification and marked `Modelled from the spec:`.
-/

namespace Isla

/-- Modelled from the spec: a derivation-tree node value is either a grammar
symbol (nonterminal or terminal literal, a string) or a constant
(bound-variable placeholder).  Mirrors `DerivationTree.value` being
`str` or `isla.Constant` in the source. -/
inductive TreeVal where
  | str (s : String)
  | cvar (name : String) (nType : String)
deriving DecidableEq

/-- Modelled from the spec: a derivation tree node has a symbol, an optional
ordered list of children (`none` marks an open leaf) and a process-unique
identity.  `leafO` is a node whose `children` is `None` in Python; `inner`
is a node with a (possibly empty) children list. -/
inductive DTree where
  | leafO (value : TreeVal) (id : Nat)
  | inner (value : TreeVal) (children : List DTree) (id : Nat)

instance : Inhabited DTree := ⟨DTree.leafO (TreeVal.str "") 0⟩

mutual
/-- Decidable structural equality of derivation trees. -/
def dtreeDecEq : (a b : DTree) → Decidable (a = b)
  | .leafO v i, .leafO w j =>
    if h : v = w ∧ i = j then .isTrue (by rw [h.1, h.2])
    else .isFalse (by intro he; injection he with h1 h2; exact h ⟨h1, h2⟩)
  | .leafO _ _, .inner _ _ _ => .isFalse (by intro he; exact DTree.noConfusion he)
  | .inner _ _ _, .leafO _ _ => .isFalse (by intro he; exact DTree.noConfusion he)
  | .inner v cs i, .inner w ds j =>
    match dtreeDecEqL cs ds with
    | .isTrue hc =>
      if h : v = w ∧ i = j then .isTrue (by rw [h.1, h.2, hc])
      else .isFalse (by intro he; injection he with h1 h2 h3; exact h ⟨h1, h3⟩)
    | .isFalse hc => .isFalse (by intro he; injection he with h1 h2 h3; exact hc h2)

/-- Decidable equality of lists of derivation trees. -/
def dtreeDecEqL : (as bs : List DTree) → Decidable (as = bs)
  | [], [] => .isTrue rfl
  | [], _ :: _ => .isFalse (by intro he; exact List.noConfusion he)
  | _ :: _, [] => .isFalse (by intro he; exact List.noConfusion he)
  | a :: as, b :: bs =>
    match dtreeDecEq a b, dtreeDecEqL as bs with
    | .isTrue h1, .isTrue h2 => .isTrue (by rw [h1, h2])
    | .isFalse h1, _ => .isFalse (by intro he; injection he with he1 he2; exact h1 he1)
    | .isTrue _, .isFalse h2 => .isFalse (by intro he; injection he with he1 he2; exact h2 he2)
end

instance : DecidableEq DTree := dtreeDecEq

/-- A path in a derivation tree: the list of child indices from the root. -/
abbrev TPath := List Nat

/-- The symbol of a tree's root node. -/
def DTree.value : DTree → TreeVal
  | .leafO v _ => v
  | .inner v _ _ => v

/-- The process-unique identity of a tree's root node. -/
def DTree.nid : DTree → Nat
  | .leafO _ i => i
  | .inner _ _ i => i

/-- Whether a grammar symbol is a nonterminal (bracketed), as in
`fuzzingbook.Grammars.is_nonterminal`. -/
def isNonterminal (s : String) : Bool :=
  s.startsWith "<" && s.endsWith ">"

mutual
/-- Modelled from the spec: a tree is complete when it has no open leaves
(`DerivationTree.is_complete`). -/
def isComplete : DTree → Bool
  | .leafO _ _ => false
  | .inner _ cs _ => isCompleteL cs

/-- Completeness of every tree in a list of children. -/
def isCompleteL : List DTree → Bool
  | [] => true
  | c :: cs => isComplete c && isCompleteL cs
end

/-- Modelled from the spec: a tree is open when it contains an open leaf
(`DerivationTree.is_open`). -/
def isOpen (t : DTree) : Bool := !(isComplete t)

mutual
/-- Modelled from the spec: all (path, subtree) pairs of a tree in preorder
(`DerivationTree.path_iterator`). -/
def subtreePathsT (t : DTree) : List (TPath × DTree) :=
  match t with
  | .leafO _ _ => [([], t)]
  | .inner _ cs _ => ([], t) :: subtreePathsL cs 0

/-- Subtree paths of a list of children, starting at child index `k`. -/
def subtreePathsL : List DTree → Nat → List (TPath × DTree)
  | [], _ => []
  | c :: cs, k =>
    (subtreePathsT c).map (fun pt => (k :: pt.1, pt.2)) ++ subtreePathsL cs (k + 1)
end

mutual
/-- Modelled from the spec: the open concrete leaves of a tree, i.e. open
leaves whose symbol is a grammar symbol and not a constant placeholder
(`DerivationTree.open_concrete_leaves`), with their paths. -/
def openConcreteLeaves : DTree → List (TPath × String)
  | .leafO (.str s) _ => [([], s)]
  | .leafO (.cvar _ _) _ => []
  | .inner _ cs _ => openConcreteLeavesL cs 0

/-- Open concrete leaves of a list of children, starting at index `k`. -/
def openConcreteLeavesL : List DTree → Nat → List (TPath × String)
  | [], _ => []
  | c :: cs, k =>
    (openConcreteLeaves c).map (fun ps => (k :: ps.1, ps.2)) ++
      openConcreteLeavesL cs (k + 1)
end

mutual
/-- Modelled from the spec: the yield of a tree is the left-to-right
concatenation of its terminal symbols. -/
def treeToString : DTree → String
  | .leafO _ _ => ""
  | .inner (.str s) [] _ => if isNonterminal s then "" else s
  | .inner (.str _) (c :: cs) _ => treeToStringL (c :: cs)
  | .inner (.cvar _ _) cs _ => treeToStringL cs

/-- Yield of a list of children. -/
def treeToStringL : List DTree → String
  | [] => ""
  | c :: cs => treeToString c ++ treeToStringL cs
end

/-- Modelled from the spec: fetch the subtree at a path
(`DerivationTree.get_subtree`); `none` when the path is invalid. -/
def getSubtreeAt : TPath → DTree → Option DTree
  | [], t => some t
  | _ :: _, .leafO _ _ => none
  | k :: ps, .inner _ cs _ =>
    match cs.get? k with
    | none => none
    | some c => getSubtreeAt ps c

/-- Modelled from the spec: replace the subtree at a path, sharing all
unchanged subtrees and their identities (`DerivationTree.replace_path`).
An invalid path leaves the tree unchanged. -/
def replacePath : TPath → DTree → DTree → DTree
  | [], _, r => r
  | _ :: _, .leafO v i, _ => .leafO v i
  | k :: ps, .inner v cs i, r =>
    .inner v ((cs.enum).map (fun jc => if jc.1 = k then replacePath ps jc.2 r else jc.2)) i

mutual
/-- Modelled from the spec: replace constant placeholders by their
nonterminal types (`DerivationTree.make_concrete`). -/
def makeConcrete : DTree → DTree
  | .leafO (.str s) i => .leafO (.str s) i
  | .leafO (.cvar _ nt) i => .leafO (.str nt) i
  | .inner (.str s) cs i => .inner (.str s) (makeConcreteL cs) i
  | .inner (.cvar _ nt) cs i => .inner (.str nt) (makeConcreteL cs) i

/-- `makeConcrete` on a list of children. -/
def makeConcreteL : List DTree → List DTree
  | [] => []
  | c :: cs => makeConcrete c :: makeConcreteL cs
end

/-- A variable of the constraint language (`input_constraints.isla.Variable`):
`isConst` distinguishes the `Constant` variant from `BoundVariable`
(Python compares `type(...)` in `__eq__`); each variable carries a name and a
nonterminal type. -/
structure Var where
  isConst : Bool
  name : String
  nType : String
deriving DecidableEq

/-- Build a `Constant` variable. -/
def mkConst (name nType : String) : Var := ⟨true, name, nType⟩

/-- Build a `BoundVariable`. -/
def mkBound (name nType : String) : Var := ⟨false, name, nType⟩

/-- A bind expression: an ordered sequence of terminal literals and bound
variables fixing the outermost shape of a quantifier's bound subtree
(`input_constraints.isla.BindExpression`). -/
structure BindExpr where
  boundElements : List (Sum String Var)
deriving DecidableEq

/-- The bound variables of a bind expression, in order. -/
def bindVars (b : BindExpr) : List Var :=
  b.boundElements.filterMap (fun e => match e with | .inr v => some v | .inl _ => none)

/-- A small term language standing for the z3 expressions the solver
manipulates: boolean constants, string variables and literals, equality,
negation, conjunction, disjunction, membership in the regular language
approximating a nonterminal (`z3.InRe`), and a quantifier node (what
`visit_z3_expr` detects as `z3.QuantifierRef`). -/
inductive Z3Expr where
  | boolVal (b : Bool)
  | strVar (name : String)
  | strVal (s : String)
  | eqE (a b : Z3Expr)
  | notE (a : Z3Expr)
  | andE (a b : Z3Expr)
  | orE (a b : Z3Expr)
  | inRe (a : Z3Expr) (regexId : String)
  | quantE (body : Z3Expr)
deriving DecidableEq

/-- Whether a z3 expression contains a quantifier node, as the
`visit_z3_expr` loop of `satisfies_invariant` detects. -/
def hasQuantE : Z3Expr → Bool
  | .boolVal _ => false
  | .strVar _ => false
  | .strVal _ => false
  | .eqE a b => hasQuantE a || hasQuantE b
  | .notE a => hasQuantE a
  | .andE a b => hasQuantE a || hasQuantE b
  | .orE a b => hasQuantE a || hasQuantE b
  | .inRe a _ => hasQuantE a
  | .quantE _ => true

/-- Substitute string variables by string literals in a z3 expression
(`z3.substitute` with `z3.String ↦ z3.StringVal` pairs). -/
def substZ3 (env : List (String × String)) : Z3Expr → Z3Expr
  | .boolVal b => .boolVal b
  | .strVar n =>
    match env.find? (fun p => p.1 == n) with
    | some p => .strVal p.2
    | none => .strVar n
  | .strVal s => .strVal s
  | .eqE a b => .eqE (substZ3 env a) (substZ3 env b)
  | .notE a => .notE (substZ3 env a)
  | .andE a b => .andE (substZ3 env a) (substZ3 env b)
  | .orE a b => .orE (substZ3 env a) (substZ3 env b)
  | .inRe a r => .inRe (substZ3 env a) r
  | .quantE a => .quantE (substZ3 env a)

mutual
/-- Modelled from the spec: `prefixOf t1 t2` holds when `t1` is a tree
prefix of `t2` — equal root symbols, and when `t1` has a children list,
`t2` has one of the same length with pairwise prefixes
(`DerivationTree.is_prefix`). -/
def prefixOf : DTree → DTree → Bool
  | .leafO v _, t2 => t2.value == v
  | .inner _ _ _, .leafO _ _ => false
  | .inner v cs _, .inner w ds _ => v == w && prefixOfL cs ds

/-- Pairwise tree-prefix of two children lists of equal length. -/
def prefixOfL : List DTree → List DTree → Bool
  | [], [] => true
  | c :: cs, d :: ds => prefixOf c d && prefixOfL cs ds
  | _, _ => false
end

/-- The formula AST of `input_constraints.isla` (lang.py in the source
tree): SMT atoms (carrying their free variables, the variables already
instantiated by trees, and the recorded tree substitutions), predicate
atoms, negation, binary conjunction and disjunction (the `&`/`|` operators
build binary nodes), and universal/existential tree quantifiers whose
`in_variable` is either a variable or a concrete derivation tree. -/
inductive Formula where
  | smtF (phi : Z3Expr) (freeVars instVars : List Var)
      (substitutions : List (Var × DTree))
  | predF (name : String) (args : List (Sum Var DTree))
  | negF (f : Formula)
  | conjF (a b : Formula)
  | disjF (a b : Formula)
  | forallF (bv : Var) (inV : Sum Var DTree) (inner : Formula) (bindE : Option BindExpr)
  | existsF (bv : Var) (inV : Sum Var DTree) (inner : Formula) (bindE : Option BindExpr)
deriving DecidableEq

/-- The formula `sc.true()`: an SMT atom `z3.BoolVal(True)` with no
variables. -/
def trueFormula : Formula := .smtF (.boolVal true) [] [] []

/-- `split_conjunction`: flatten nested binary conjunctions into the list of
conjuncts; any other formula is a single conjunct. -/
def splitConjunction : Formula → List Formula
  | .conjF a b => splitConjunction a ++ splitConjunction b
  | f => [f]

/-- `split_disjunction`: flatten nested binary disjunctions into the list of
disjuncts; any other formula is a single disjunct. -/
def splitDisjunction : Formula → List Formula
  | .disjF a b => splitDisjunction a ++ splitDisjunction b
  | f => [f]

/-- `get_conjuncts`: the conjuncts of every disjunct of a formula. -/
def getConjuncts (f : Formula) : List Formula :=
  (splitDisjunction f).flatMap splitConjunction

/-- Whether a formula is an `SMTFormula` node. -/
def isSmtF : Formula → Bool
  | .smtF _ _ _ _ => true
  | _ => false

/-- Whether a formula is a `PredicateFormula` node. -/
def isPredF : Formula → Bool
  | .predF _ _ => true
  | _ => false

/-- Whether a formula is a `QuantifiedFormula` node (universal or
existential). -/
def isQuantF : Formula → Bool
  | .forallF _ _ _ _ => true
  | .existsF _ _ _ _ => true
  | _ => false

/-- Whether a formula is an `ExistsFormula` node. -/
def isExistsF : Formula → Bool
  | .existsF _ _ _ _ => true
  | _ => false

/-- Whether a formula is a `ForallFormula` node. -/
def isForallF : Formula → Bool
  | .forallF _ _ _ _ => true
  | _ => false

/-- Whether a formula is a `DisjunctiveFormula` node. -/
def isDisjF : Formula → Bool
  | .disjF _ _ => true
  | _ => false

/-- Order-preserving union of variable lists, as `OrderedSet` union. -/
def varUnion (a b : List Var) : List Var :=
  a ++ b.filter (fun v => !(a.contains v))

/-- The free variables of a formula, following `lang.py`: SMT atoms carry
them explicitly, predicate arguments contribute their variables,
propositional combinators take unions, and a quantifier removes its bound
variables (the quantified variable and the bind-expression variables) from
the union of its `in_variable` and its inner formula's free variables. -/
def freeVarsF : Formula → List Var
  | .smtF _ fv _ _ => fv
  | .predF _ args => args.filterMap (fun a => match a with | .inl v => some v | .inr _ => none)
  | .negF f => freeVarsF f
  | .conjF a b => varUnion (freeVarsF a) (freeVarsF b)
  | .disjF a b => varUnion (freeVarsF a) (freeVarsF b)
  | .forallF bv inV inner be =>
    let bound := bv :: (match be with | some b => bindVars b | none => [])
    (varUnion (match inV with | .inl v => [v] | .inr _ => []) (freeVarsF inner)).filter
      (fun v => !(bound.contains v))
  | .existsF bv inV inner be =>
    let bound := bv :: (match be with | some b => bindVars b | none => [])
    (varUnion (match inV with | .inl v => [v] | .inr _ => []) (freeVarsF inner)).filter
      (fun v => !(bound.contains v))

/-- Modelled from the spec: `Formula.tree_arguments` of the missing
`input_constraints.isla` module — the derivation trees embedded in a
formula (SMT substitutions, predicate arguments, quantifier `in_variable`
trees), collected recursively. -/
def treeArguments : Formula → List DTree
  | .smtF _ _ _ subs => subs.map (fun p => p.2)
  | .predF _ args => args.filterMap (fun a => match a with | .inr t => some t | .inl _ => none)
  | .negF f => treeArguments f
  | .conjF a b => treeArguments a ++ treeArguments b
  | .disjF a b => treeArguments a ++ treeArguments b
  | .forallF _ inV inner _ =>
    (match inV with | .inr t => [t] | .inl _ => []) ++ treeArguments inner
  | .existsF _ inV inner _ =>
    (match inV with | .inr t => [t] | .inl _ => []) ++ treeArguments inner

/-- Look up a variable in a variable-to-tree substitution map. -/
def lookupVT (σ : List (Var × DTree)) (v : Var) : Option DTree :=
  (σ.find? (fun p => p.1 == v)).map (fun p => p.2)

/-- Substitution applied to a quantifier's `in_variable`. -/
def substInV (σ : List (Var × DTree)) : Sum Var DTree → Sum Var DTree
  | .inl v =>
    match lookupVT σ v with
    | some t => .inr t
    | none => .inl v
  | .inr t => .inr t

/-- Modelled from the spec: `Formula.substitute_expressions` of the missing
`input_constraints.isla` module — replace variables by derivation trees.
An SMT atom records the substitution (moving the affected free variables to
its instantiated variables); predicate arguments and quantifier
`in_variable`s are replaced; the quantifier's own bound variables are
excluded from the substitution of its inner formula. -/
def substituteExpressions (σ : List (Var × DTree)) : Formula → Formula
  | .smtF φ fv iv subs =>
    .smtF φ (fv.filter (fun v => (lookupVT σ v).isNone))
      (iv ++ fv.filter (fun v => (lookupVT σ v).isSome))
      (subs ++ σ.filter (fun p => fv.contains p.1))
  | .predF n args =>
    .predF n (args.map (fun a =>
      match a with
      | .inl v => match lookupVT σ v with
        | some t => .inr t
        | none => .inl v
      | .inr t => .inr t))
  | .negF f => .negF (substituteExpressions σ f)
  | .conjF a b => .conjF (substituteExpressions σ a) (substituteExpressions σ b)
  | .disjF a b => .disjF (substituteExpressions σ a) (substituteExpressions σ b)
  | .forallF bv inV inner be =>
    let bound := bv :: (match be with | some b => bindVars b | none => [])
    .forallF bv (substInV σ inV)
      (substituteExpressions (σ.filter (fun p => !(bound.contains p.1))) inner) be
  | .existsF bv inV inner be =>
    let bound := bv :: (match be with | some b => bindVars b | none => [])
    .existsF bv (substInV σ inV)
      (substituteExpressions (σ.filter (fun p => !(bound.contains p.1))) inner) be

/-- Modelled from the spec: `isla.replace_formula` of the missing
`input_constraints.isla` module — replace every occurrence of `toRepl`
inside a formula by `repl`, descending through propositional combinators
and quantifier bodies. -/
def replaceFormula (f toRepl repl : Formula) : Formula :=
  if f == toRepl then repl
  else
    match f with
    | .negF g => .negF (replaceFormula g toRepl repl)
    | .conjF a b => .conjF (replaceFormula a toRepl repl) (replaceFormula b toRepl repl)
    | .disjF a b => .disjF (replaceFormula a toRepl repl) (replaceFormula b toRepl repl)
    | .forallF bv inV inner be => .forallF bv inV (replaceFormula inner toRepl repl) be
    | .existsF bv inV inner be => .existsF bv inV (replaceFormula inner toRepl repl) be
    | g => g

/-- A canonical grammar: each nonterminal maps to its ordered list of
alternatives, each alternative an ordered list of symbols
(`fuzzingbook.Parser.canonical`). -/
abbrev CGrammar := List (String × List (List String))

/-- Look up the alternatives of a nonterminal in a canonical grammar;
`none` mirrors a Python `KeyError`. -/
def lookupCG (g : CGrammar) (nt : String) : Option (List (List String)) :=
  (g.find? (fun p => p.1 == nt)).map (fun p => p.2)

/-- The nonterminals directly reachable from `a` in one expansion step. -/
def directSucc (g : CGrammar) (a : String) : List String :=
  ((lookupCG g a).getD []).flatMap (fun alt => alt.filter isNonterminal)

/-- Fuel-bounded reachability search in the grammar graph. -/
def reachableFuel (g : CGrammar) : Nat → String → String → Bool
  | 0, _, _ => false
  | n + 1, a, b =>
    (directSucc g a).any (fun c => c == b || reachableFuel g n c b)

/-- Modelled from the spec: `ISLaSolver.reachable`, backed by the external
`GrammarGraph` — whether nonterminal `b` is reachable from `a` by at least
one expansion step.  The fuel `g.length + 1` covers every simple path. -/
def reachableNT (g : CGrammar) (a b : String) : Bool :=
  reachableFuel g (g.length + 1) a b

/-- Modelled from the spec: `BindExpression.to_tree_prefix` — the tree
prefix pattern fixed by a bind expression for a bound subtree of type
`nType`, together with the paths of the bind expression's bound variables
inside it.  Terminal literals become terminal nodes, bound variables become
open leaves labelled with their nonterminal type. -/
def treePatternOfBind (b : BindExpr) (nType : String) : DTree × List (Var × TPath) :=
  let children := b.boundElements.map (fun e =>
    match e with
    | .inl s => DTree.inner (.str s) [] 0
    | .inr v => DTree.leafO (.str v.nType) 0)
  let vpaths := (b.boundElements.enum).filterMap (fun ke =>
    match ke.2 with
    | .inr v => some (v, [ke.1])
    | .inl _ => none)
  (DTree.inner (.str nType) children 0, vpaths)

/-- Modelled from the spec: matching a bind expression against a subtree —
the subtree's outermost shape must equal the bind-expression tree prefix,
and the extra bound variables are read off at their prescribed relative
paths. -/
def bindMatchF (b : BindExpr) (nType : String) (t : DTree) :
    Option (List (Var × (TPath × DTree))) :=
  let pat := treePatternOfBind b nType
  if prefixOf pat.1 t then
    some (pat.2.filterMap (fun vp =>
      (getSubtreeAt vp.2 t).map (fun st => (vp.1, (vp.2, st)))))
  else none

/-- A match of a quantified formula: an assignment from variables to
(path, subtree) pairs, the bound variable first. -/
abbrev QMatch := List (Var × (TPath × DTree))

/-- Modelled from the spec: `isla.matches_for_quantified_variable` of the
missing `input_constraints.isla` module — every assignment of the
quantifier's bound variable (and, through the bind expression, of the extra
bound variables) to positions inside the quantifier's `in` tree whose root
symbol equals the bound variable's nonterminal type.  When the
`in_variable` has not been substituted by a tree yet, the state's whole
tree is searched. -/
def matchesForQuantifiedVariable (bv : Var) (inV : Sum Var DTree)
    (be : Option BindExpr) (tree : DTree) : List QMatch :=
  let base := match inV with | .inr t => t | .inl _ => tree
  (subtreePathsT base).filterMap (fun pt =>
    if pt.2.value == TreeVal.str bv.nType then
      match be with
      | none => some [(bv, pt)]
      | some b =>
        match bindMatchF b bv.nType pt.2 with
        | none => none
        | some extra =>
          some ((bv, pt) :: extra.map (fun vps => (vps.1, (pt.1 ++ vps.2.1, vps.2.2))))
    else none)

/-- The tree a quantifier ranges over, from its `in_variable` or the
current assignment; `none` when the variable is unassigned. -/
def inVarTree (inV : Sum Var DTree) (asg : List (Var × DTree)) : Option DTree :=
  match inV with
  | .inr t => some t
  | .inl v => lookupVT asg v

/-- Modelled from the spec: `isla.evaluate` of the missing
`input_constraints.isla` module, the boolean evaluator used by
`SolutionState.formula_satisfied` on complete trees.  `chk` is the SMT
satisfiability oracle (`chk e = true` when z3 reports `e` satisfiable) and
`pev` evaluates structural predicates.  An SMT atom holds when its negation
is unsatisfiable after substituting every assigned variable by the string
yield of its tree; quantifiers range over the matches inside their `in`
tree. -/
def evaluateF (chk : Z3Expr → Bool) (pev : String → List (Sum Var DTree) → Bool) :
    Formula → List (Var × DTree) → Bool
  | .smtF φ _ _ subs, asg =>
    let env := (subs ++ asg).map (fun p => (p.1.name, treeToString p.2))
    !(chk (.notE (substZ3 env φ)))
  | .predF n args, _ => pev n args
  | .negF f, asg => !(evaluateF chk pev f asg)
  | .conjF a b, asg => evaluateF chk pev a asg && evaluateF chk pev b asg
  | .disjF a b, asg => evaluateF chk pev a asg || evaluateF chk pev b asg
  | .forallF bv inV inner be, asg =>
    match inVarTree inV asg with
    | none => true
    | some base =>
      (matchesForQuantifiedVariable bv (.inr base) be base).all
        (fun m => evaluateF chk pev inner (m.map (fun vps => (vps.1, vps.2.2)) ++ asg))
  | .existsF bv inV inner be, asg =>
    match inVarTree inV asg with
    | none => false
    | some base =>
      (matchesForQuantifiedVariable bv (.inr base) be base).any
        (fun m => evaluateF chk pev inner (m.map (fun vps => (vps.1, vps.2.2)) ++ asg))

/-- The `already_matched` map of a `SolutionState`: quantified formulas to
the set of tree node ids already instantiated for them, as an association
list with insertion order. -/
abbrev AMatched := List (Formula × List Nat)

/-- Look up the id set recorded for a formula (`already_matched.setdefault`
reads the empty set when absent). -/
def lookupAM (am : AMatched) (f : Formula) : List Nat :=
  ((am.find? (fun p => p.1 == f)).map (fun p => p.2)).getD []

/-- Whether a formula has an entry in the map. -/
def hasKeyAM (am : AMatched) (f : Formula) : Bool :=
  (am.find? (fun p => p.1 == f)).isSome

/-- Record a tree id for a formula (`setdefault(formula, set()).add(id)`):
set semantics, insertion order preserved. -/
def addAM : AMatched → Formula → Nat → AMatched
  | [], f, i => [(f, [i])]
  | (g, ids) :: rest, f, i =>
    if g == f then (g, if ids.contains i then ids else ids ++ [i]) :: rest
    else (g, ids) :: addAM rest f i

/-- The Python dict union `old | new`: keys of `old` first with values
overridden by `new` where present, then the keys only in `new`. -/
def mergeAM (old new : AMatched) : AMatched :=
  old.map (fun p => (p.1, if hasKeyAM new p.1 then lookupAM new p.1 else p.2)) ++
    new.filter (fun p => !(hasKeyAM old p.1))

/-- `SolutionState`: a constraint formula, a derivation tree, and the
`already_matched` map. -/
structure SolutionState where
  constraint : Formula
  tree : DTree
  alreadyMatched : AMatched := []
deriving DecidableEq

/-- `SolutionState.is_already_matched`: whether the tree's id is recorded
for the formula. -/
def isAlreadyMatched (s : SolutionState) (f : Formula) (t : DTree) : Bool :=
  (lookupAM s.alreadyMatched f).contains t.nid

/-- `quantified_nonterminals_reachable`: whether the quantified nonterminal
of `f` (and, with a bind expression, the bound nonterminals of the bind
expression below a node of the quantified type) is reachable from an open
concrete leaf of the tree. -/
def quantifiedNonterminalsReachable (g : CGrammar) (f : Formula) (tree : DTree) : Bool :=
  match f with
  | .forallF bv _ _ be =>
    if (openConcreteLeaves tree).any
        (fun pl => bv.nType == pl.2 || reachableNT g pl.2 bv.nType) then
      true
    else
      match be with
      | none => false
      | some b =>
        let subtrees := (subtreePathsT tree).filterMap
          (fun pt => if pt.2.value == TreeVal.str bv.nType then some pt.2 else none)
        let interesting := (bindVars b).map (fun v => v.nType)
        interesting.all (fun nt => subtrees.any (fun st =>
          (openConcreteLeaves st).any (fun pl => nt == pl.2 || reachableNT g pl.2 nt)))
  | .existsF bv _ _ be =>
    if (openConcreteLeaves tree).any
        (fun pl => bv.nType == pl.2 || reachableNT g pl.2 bv.nType) then
      true
    else
      match be with
      | none => false
      | some b =>
        let subtrees := (subtreePathsT tree).filterMap
          (fun pt => if pt.2.value == TreeVal.str bv.nType then some pt.2 else none)
        let interesting := (bindVars b).map (fun v => v.nType)
        interesting.all (fun nt => subtrees.any (fun st =>
          (openConcreteLeaves st).any (fun pl => nt == pl.2 || reachableNT g pl.2 nt)))
  | _ => false

/-- `SolutionState.formula_satisfied`: false on an open tree; the `assert
not formula.tree_arguments()` becomes an error; on a complete tree the
formula is evaluated; the remaining branches of the source (universal
formula via reachability, SMT atom via an unsatisfiability check of its
negation) are kept although a tree that is not open is complete. -/
def formulaSatisfied (g : CGrammar) (chk : Z3Expr → Bool)
    (pev : String → List (Sum Var DTree) → Bool) (s : SolutionState) :
    Except Unit Bool :=
  if isOpen s.tree then .ok false
  else if !(treeArguments s.constraint).isEmpty then .error ()
  else if isComplete s.tree then .ok (evaluateF chk pev s.constraint [])
  else
    match s.constraint with
    | .forallF bv inV inner be =>
      .ok (!(quantifiedNonterminalsReachable g (.forallF bv inV inner be) s.tree))
    | .smtF φ _ _ _ => .ok (!(chk (.notE φ)))
    | _ => .ok false

/-- `SolutionState.complete`: a complete tree, and the constraint's
conjuncts are the single formula `sc.true()`, or contain no SMT atoms, no
predicate atoms, and every quantified conjunct ranges over a complete
concrete tree. -/
def completeState (s : SolutionState) : Bool :=
  if !(isComplete s.tree) then false
  else
    let cs := getConjuncts s.constraint
    if cs == [trueFormula] then true
    else
      cs.all (fun c => !(isSmtF c)) &&
      cs.all (fun c => !(isPredF c)) &&
      cs.all (fun c =>
        !(isQuantF c) ||
        (match c with
         | .forallF _ (.inr t) _ _ => isComplete t
         | .existsF _ (.inr t) _ _ => isComplete t
         | _ => false))

/-- Whether `p` is a (proper or improper) initial segment of `q`, i.e.
`q[:len(p)] == p`. -/
def pathPre : TPath → TPath → Bool
  | [], _ => true
  | _ :: _, [] => false
  | a :: ps, b :: qs => a == b && pathPre ps qs

/-- `ISLaSolver.quantified_formula_might_match`: the leaf's nonterminal
equals or reaches the quantified nonterminal, or — with a bind expression
mentioning the leaf's nonterminal — some ancestor subtree of the leaf,
made concrete, is a tree prefix of the bind expression's prefix tree. -/
def quantifiedFormulaMightMatch (g : CGrammar) (q : Formula) (p : TPath)
    (tree : DTree) : Bool :=
  match getSubtreeAt p tree with
  | none => false
  | some node =>
    let nt := match node.value with | .str s => s | .cvar _ ty => ty
    let check := fun (bv : Var) (be : Option BindExpr) =>
      if bv.nType == nt || reachableNT g nt bv.nType then true
      else
        match be with
        | none => false
        | some b =>
          if (bindVars b).any (fun v => v.nType == nt) then
            let pat := (treePatternOfBind b bv.nType).1
            (subtreePathsT tree).any (fun pt =>
              if pt.1.length ≥ p.length || !(pathPre pt.1 p) then false
              else prefixOf (makeConcrete pt.2) pat)
          else false
    match q with
    | .forallF bv _ _ be => check bv be
    | .existsF bv _ _ be => check bv be
    | _ => false

/-- `ISLaSolver.can_be_freely_instantiated`: no quantified conjunct might
match the leaf, the leaf is not among any conjunct's tree arguments, and a
constant-labelled leaf is not free in any conjunct. -/
def canBeFreelyInstantiated (g : CGrammar) (p : TPath) (f : Formula)
    (tree : DTree) : Bool :=
  let cs := getConjuncts f
  let qs := cs.filter isQuantF
  match getSubtreeAt p tree with
  | none => false
  | some node =>
    !(qs.any (fun q => quantifiedFormulaMightMatch g q p tree)) &&
    cs.all (fun c => !((treeArguments c).contains node)) &&
    (match node.value with
     | .cvar nm ty => cs.all (fun c => !((freeVarsF c).contains (mkConst nm ty)))
     | .str _ => true)

/-- The conjunct type codes of `satisfies_invariant`: SMT atoms 1,
predicate atoms 2, existential 3, universal 4, anything else 0 (the
source's `-1`). -/
def conjunctTypeCode : Formula → Nat
  | .smtF _ _ _ _ => 1
  | .predF _ _ => 2
  | .existsF _ _ _ _ => 3
  | .forallF _ _ _ _ => 4
  | _ => 0

/-- Whether a list is sorted in nondecreasing order, i.e.
`sorted(xs) == xs`. -/
def isMonotoneCodes : List Nat → Bool
  | [] => true
  | [_] => true
  | a :: b :: r => a ≤ b && isMonotoneCodes (b :: r)

/-- The tree prefixes of the universal conjuncts
(`universal_tree_prefixes`): a single open node of the bound variable's
type without a bind expression, else the bind expression's prefix tree. -/
def universalTreePrefixList (cs : List Formula) : List DTree :=
  cs.filterMap (fun c =>
    match c with
    | .forallF bv _ _ none => some (DTree.leafO (.str bv.nType) 0)
    | .forallF bv _ _ (some b) => some ((treePatternOfBind b bv.nType).1)
    | _ => none)

/-- No distinct pair of universal tree prefixes is in the tree-prefix
relation (the source compares by object identity, modelled by index). -/
def noPrefixPair (ps : List DTree) : Bool :=
  (List.range ps.length).all (fun i => (List.range ps.length).all (fun j =>
    i == j || !(prefixOf (ps.getD i default) (ps.getD j default))))

/-- The per-disjunct checks of `satisfies_invariant`: no disjunction among
the conjuncts, negation only immediately around a predicate atom, no
quantifier inside an SMT atom, only the four permitted conjunct kinds in
nondecreasing type-code order, and no ambiguous pair of universal tree
prefixes. -/
def checkDisjunctInvariant (d : Formula) : Bool :=
  let cs := splitConjunction d
  if cs.any isDisjF then false
  else if cs.any (fun c => match c with | .negF h => !(isPredF h) | _ => false) then false
  else if (cs.filter isSmtF).any
      (fun c => match c with | .smtF φ _ _ _ => hasQuantE φ | _ => false) then false
  else
    let types := cs.map conjunctTypeCode
    if types.contains 0 then false
    else if !(isMonotoneCodes types) then false
    else noPrefixPair (universalTreePrefixList cs)

/-- `satisfies_invariant`: the source's `for` loop over the disjuncts
returns inside its first iteration, so only the first disjunct is
checked. -/
def satisfiesInvariant (f : Formula) : Bool :=
  match splitDisjunction f with
  | [] => true
  | d :: _ => checkDisjunctInvariant d

/-- `is_semantic_formula`: no predicate atom and no quantifier anywhere in
the formula. -/
def isSemanticFormula : Formula → Bool
  | .smtF _ _ _ _ => true
  | .predF _ _ => false
  | .negF f => isSemanticFormula f
  | .conjF a b => isSemanticFormula a && isSemanticFormula b
  | .disjF a b => isSemanticFormula a && isSemanticFormula b
  | .forallF _ _ _ _ => false
  | .existsF _ _ _ _ => false

/-- `ISLaSolver.expand_tree_at`: replace the leaf at `p` by a one-level
expansion for every alternative of the canonical grammar rule for `sym`;
nonterminal children become open leaves, terminal children become nodes
with an empty children list.  New nodes receive fresh identities derived
from `nid`; an unknown nonterminal is a `KeyError`. -/
def expandTreeAt (cg : CGrammar) (nid : Nat) (t : DTree) (p : TPath)
    (sym : String) : Except Unit (List DTree) :=
  match lookupCG cg sym with
  | none => .error ()
  | some alts => .ok ((alts.enum).map (fun ka =>
      replacePath p t (DTree.inner (.str sym)
        ((ka.2.enum).map (fun jc =>
          if isNonterminal jc.2 then DTree.leafO (.str jc.2) (nid + 100 * ka.1 + jc.1 + 1)
          else DTree.inner (.str jc.2) [] (nid + 100 * ka.1 + jc.1 + 1)))
        (nid + 100 * ka.1))))

/-- The match-processing loop of `ISLaSolver.match_universal_formulas`:
for each match, skip it when the bound variable's subtree id is already
recorded in the state's `already_matched` map for the formula; otherwise
record the id, instantiate the inner formula with the matched subtrees and
replace the universal formula inside the context formula by the
instantiation.  (Matches produced by `matchesForQuantifiedVariable` always
contain the bound variable; a missing entry is skipped.) -/
def processMatches (s : SolutionState) (uf : Formula) (bv : Var)
    (inner : Formula) : List QMatch → Formula × AMatched → Formula × AMatched
  | [], acc => acc
  | m :: ms, acc =>
    match (m.find? (fun vps => vps.1 == bv)).map (fun vps => vps.2.2) with
    | none => processMatches s uf bv inner ms acc
    | some bt =>
      if isAlreadyMatched s uf bt then processMatches s uf bv inner ms acc
      else
        let inst := substituteExpressions (m.map (fun vps => (vps.1, vps.2.2))) inner
        processMatches s uf bv inner ms
          (replaceFormula acc.1 uf inst, addAM acc.2 uf bt.nid)

/-- The manual-expansion fold of `match_universal_formulas`: for every
match whose bound-variable node is still an open leaf, replace each
accumulated tree by its expansions at that leaf. -/
def expandForMatches (cg : CGrammar) (nid : Nat) (bv : Var) :
    List QMatch → List DTree → Except Unit (List DTree)
  | [], trees => .ok trees
  | m :: ms, trees =>
    match (m.find? (fun vps => vps.1 == bv)).map (fun vps => vps.2) with
    | none => expandForMatches cg nid bv ms trees
    | some lpln =>
      match lpln.2 with
      | .inner _ _ _ => expandForMatches cg nid bv ms trees
      | .leafO (.cvar _ _) _ => .error ()
      | .leafO (.str sym) _ =>
        match trees.foldl (fun (acc : Except Unit (List DTree)) t =>
            match acc with
            | .error e => .error e
            | .ok done =>
              match expandTreeAt cg nid t lpln.1 sym with
              | .error e => .error e
              | .ok more => .ok (done ++ more)) (.ok []) with
        | .error e => .error e
        | .ok trees' => expandForMatches cg nid bv ms trees'

/-- The outer loop of `match_universal_formulas` over the universal
formulas of the disjunct.  `Sum.inl` is the source's early `return` from
the manual-expansion branch (taken when a formula with a bind expression
has no filtered match but does match without it); `Sum.inr` carries the
rewritten context formula and the matches recorded so far. -/
def matchLoop (cg : CGrammar) (nid : Nat) (s : SolutionState) :
    List Formula → Formula → AMatched →
    Except Unit (Sum (List SolutionState) (Formula × AMatched))
  | [], ctx, matched => .ok (.inr (ctx, matched))
  | uf :: rest, ctx, matched =>
    match uf with
    | .forallF bv inV inner be =>
      let ms := matchesForQuantifiedVariable bv inV be s.tree
      let msf := ms.filter (fun m =>
        m.any (fun vps => match vps.2.2 with | .leafO _ _ => true | _ => false))
      if msf.isEmpty then
        match be with
        | none => matchLoop cg nid s rest ctx matched
        | some _ =>
          let ms2 := matchesForQuantifiedVariable bv inV none s.tree
          if ms2.isEmpty then matchLoop cg nid s rest ctx matched
          else
            match expandForMatches cg nid bv ms2 [s.tree] with
            | .error e => .error e
            | .ok expanded =>
              if expanded == [s.tree] then .ok (.inl [])
              else .ok (.inl (expanded.map
                (fun et => ⟨uf, et, s.alreadyMatched⟩)))
      else
        let r := processMatches s uf bv inner msf (ctx, matched)
        matchLoop cg nid s rest r.1 r.2
    | _ => matchLoop cg nid s rest ctx matched

/-- `ISLaSolver.match_universal_formulas`: run the loop; if any match was
instantiated, return the single successor state with the rewritten context
formula, the unchanged tree, and `already_matched | matched` (Python dict
union); otherwise no successor. -/
def matchUniversalFormulas (cg : CGrammar) (nid : Nat)
    (universalFormulas : List Formula) (contextFormula : Formula)
    (s : SolutionState) : Except Unit (List SolutionState) :=
  match matchLoop cg nid s universalFormulas contextFormula [] with
  | .error e => .error e
  | .ok (.inl states) => .ok states
  | .ok (.inr cm) =>
    if !cm.2.isEmpty then
      .ok [⟨cm.1, s.tree, mergeAM s.alreadyMatched cm.2⟩]
    else .ok []

/-- `ISLaSolver.eliminate_existential_formula`: the entire body of the
source function is commented out; it returns the empty list
unconditionally. -/
def eliminateExistentialFormula (existentialFormula contextFormula : Formula)
    (tree : DTree) (s : SolutionState) : List SolutionState :=
  []

/-- The existential branch of `ISLaSolver.solve` (lines 185–194): call
`eliminate_existential_formula` and `assert new_states`; the assertion
becomes an error when the result is empty. -/
def existentialDispatch (existentialFormula disjunct : Formula) (tree : DTree)
    (s : SolutionState) : Except Unit (List SolutionState) :=
  let newStates := eliminateExistentialFormula existentialFormula disjunct tree s
  if newStates.isEmpty then .error () else .ok newStates

/-- `qfr_free_formula_to_z3_formula`: translate a propositional combination
of SMT atoms to one z3 formula; any other constructor hits the source's
`assert False`, modelled as `none`. -/
def qfrFreeFormulaToZ3Formula : Formula → Option Z3Expr
  | .smtF φ _ _ _ => some φ
  | .negF f => (qfrFreeFormulaToZ3Formula f).map .notE
  | .conjF a b =>
    match qfrFreeFormulaToZ3Formula a, qfrFreeFormulaToZ3Formula b with
    | some x, some y => some (.andE x y)
    | _, _ => none
  | .disjF a b =>
    match qfrFreeFormulaToZ3Formula a, qfrFreeFormulaToZ3Formula b with
    | some x, some y => some (.orE x y)
    | _, _ => none
  | _ => none

/-- Whether a variable is a key of a variable-to-tree map. -/
def hasKeyVT (σ : List (Var × DTree)) (v : Var) : Bool :=
  (σ.find? (fun p => p.1 == v)).isSome

/-- Python dict union `d1 | d2` for variable-to-tree maps: keys of `d1`
with values overridden by `d2`, then the keys only in `d2`. -/
def mergeVT (old new : List (Var × DTree)) : List (Var × DTree) :=
  old.map (fun p => (p.1, ((lookupVT new p.1).getD p.2))) ++
    new.filter (fun p => !(hasKeyVT old p.1))

/-- A key of an SMT solution: `tree_substitutions.get(constant, constant)`,
i.e. the tree substituted for the constant when recorded, else the constant
itself. -/
inductive SolKey where
  | kvar (v : Var)
  | ktree (t : DTree)
deriving DecidableEq

/-- One SMT solution: the map from solution keys to the parsed derivation
trees, in the iteration order of `constants`. -/
abbrev SmtSolution := List (SolKey × DTree)

/-- Modelled from the spec: `constant.to_smt()` on a solution key — the z3
string variable named after the constant (a tree key stands for its
yield). -/
def solKeyToSmt : SolKey → Z3Expr
  | .kvar v => .strVar v.name
  | .ktree t => .strVar (treeToString t)

/-- The blocking constraint added for one entry of a previous solution:
`Not(constant.to_smt() == StringVal(str(prev_solution[constant])))`. -/
def negationOf (k : SolKey) (t : DTree) : Z3Expr :=
  .notE (.eqE (solKeyToSmt k) (.strVal (treeToString t)))

/-- The assertions passed to the solver in one round of
`solve_quantifier_free_formula`: the regular-expression constraint of every
constant's nonterminal, the negation of every entry of every previous
solution, and the formula itself. -/
def buildQuery (constants : List Var) (solutions : List SmtSolution)
    (φ : Z3Expr) : List Z3Expr :=
  constants.map (fun c => .inRe (.strVar c.name) c.nType) ++
    solutions.flatMap (fun sol => sol.map (fun kt => negationOf kt.1 kt.2)) ++
    [φ]

/-- The solution extracted from a model: for every constant, parse the
model's string value back into a derivation tree, keyed by
`tree_substitutions.get(constant, constant)`. -/
def newSolutionOf (parseFn : String → String → DTree)
    (treeSubsts : List (Var × DTree)) (constants : List Var)
    (model : String → String) : SmtSolution :=
  constants.map (fun c =>
    ((match lookupVT treeSubsts c with
      | some t => SolKey.ktree t
      | none => SolKey.kvar c),
     parseFn c.nType (model c.name)))

/-- The enumeration loop of `solve_quantifier_free_formula`, one iteration
per allowed instantiation.  `oracle` is the z3 solver: given the round's
assertions it returns a model or `none` (`solver.check() != z3.sat`, which
covers both unsat and unknown).  A non-sat answer returns the solutions
collected so far (the empty list when there are none); a duplicate model
stops the enumeration. -/
def solveQffLoop (oracle : List Z3Expr → Option (String → String))
    (parseFn : String → String → DTree) (constants : List Var)
    (treeSubsts : List (Var × DTree)) (φ : Z3Expr) :
    Nat → List SmtSolution → List SmtSolution
  | 0, solutions => solutions
  | n + 1, solutions =>
    match oracle (buildQuery constants solutions φ) with
    | none => if solutions.isEmpty then [] else solutions
    | some model =>
      let newSolution := newSolutionOf parseFn treeSubsts constants model
      if solutions.contains newSolution then solutions
      else solveQffLoop oracle parseFn constants treeSubsts φ n
        (solutions ++ [newSolution])

/-- `ISLaSolver.solve_quantifier_free_formula`: collect the SMT conjuncts,
union their tree substitutions and their free and instantiated variables
(`reduce` over an empty sequence raises, modelled as an error), and run the
enumeration loop up to `maxNumberSmtInstantiations` times. -/
def solveQuantifierFreeFormula (oracle : List Z3Expr → Option (String → String))
    (parseFn : String → String → DTree) (maxNumberSmtInstantiations : Nat)
    (formula : Formula) : Except Unit (List SmtSolution) :=
  match qfrFreeFormulaToZ3Formula formula with
  | none => .error ()
  | some smtFormula =>
    let smtFormulas := (getConjuncts formula).filter isSmtF
    if smtFormulas.isEmpty then .error ()
    else
      let treeSubsts := smtFormulas.foldl (fun acc c =>
        match c with
        | .smtF _ _ _ subs => mergeVT acc subs
        | _ => acc) []
      let constants := smtFormulas.foldl (fun acc c =>
        match c with
        | .smtF _ fv iv _ => varUnion acc (varUnion fv iv)
        | _ => acc) []
      .ok (solveQffLoop oracle parseFn constants treeSubsts smtFormula
        maxNumberSmtInstantiations [])

/-- `ISLaSolver.cleanup_state`: the source returns the state unchanged (the
body below the `return` is commented out). -/
def cleanupState (s : SolutionState) : SolutionState := s

/-- `ISLaSolver.instantiate_free_symbols`: the source returns
`OrderedSet([new_state])` — the state itself, unchanged; the
free-instantiation body below the `return` is commented out. -/
def instantiateFreeSymbols (s : SolutionState) : List SolutionState := [s]

/-- `OrderedSet.add` on the queue: append unless already present. -/
def enqueueOS (queue : List SolutionState) (s : SolutionState) :
    List SolutionState :=
  if queue.contains s then queue else queue ++ [s]

/-- The per-state loop of `ISLaSolver.process_new_state`: a complete state
must satisfy its formula (`assert new_state.formula_satisfied(...)`,
modelled as an error when it does not) and its tree is appended to the
results; an incomplete state is enqueued. -/
def processNewStateGo (g : CGrammar) (chk : Z3Expr → Bool)
    (pev : String → List (Sum Var DTree) → Bool) :
    List SolutionState → List SolutionState → List DTree →
    Except Unit (List DTree × List SolutionState)
  | [], queue, result => .ok (result, queue)
  | st :: rest, queue, result =>
    if completeState st then
      match formulaSatisfied g chk pev st with
      | .error e => .error e
      | .ok true => processNewStateGo g chk pev rest queue (result ++ [st.tree])
      | .ok false => .error ()
    else processNewStateGo g chk pev rest (enqueueOS queue st) result

/-- `ISLaSolver.process_new_state`: clean up the state, post-process it by
`instantiate_free_symbols` when every open concrete leaf can be freely
instantiated, then yield the complete satisfied trees and enqueue the
rest. -/
def processNewState (g : CGrammar) (chk : Z3Expr → Bool)
    (pev : String → List (Sum Var DTree) → Bool) (s : SolutionState)
    (queue : List SolutionState) :
    Except Unit (List DTree × List SolutionState) :=
  let s1 := cleanupState s
  let newStates :=
    if (openConcreteLeaves s1.tree).all
        (fun pl => canBeFreelyInstantiated g pl.1 s1.constraint s1.tree) then
      instantiateFreeSymbols s1
    else [s1]
  processNewStateGo g chk pev newStates queue []

end Isla

namespace IslaEval

open Isla (Z3Expr DTree substZ3 treeToString)

/-- The three-valued truth type of `isla.evaluator.ThreeValuedTruth`, with
`FALSE = 0`, `TRUE = 1`, `UNKNOWN = 2`. -/
inductive ThreeValuedTruth where
  | fls
  | tru
  | unk
deriving DecidableEq

namespace ThreeValuedTruth

/-- The integer `val` stored by the Python object. -/
def val : ThreeValuedTruth → Nat
  | fls => 0
  | tru => 1
  | unk => 2

/-- `ThreeValuedTruth.is_false`. -/
def isFalse (t : ThreeValuedTruth) : Bool := t == fls

/-- `ThreeValuedTruth.is_true`. -/
def isTrue (t : ThreeValuedTruth) : Bool := t == tru

/-- `ThreeValuedTruth.is_unknown`. -/
def isUnknown (t : ThreeValuedTruth) : Bool := t == unk

/-- `ThreeValuedTruth.from_bool`. -/
def fromBool (b : Bool) : ThreeValuedTruth := if b then tru else fls

/-- `ThreeValuedTruth.all`: FALSE when some argument is false, else UNKNOWN
when some argument is unknown, else TRUE. -/
def allTV (args : List ThreeValuedTruth) : ThreeValuedTruth :=
  if args.any isFalse then fls
  else if args.any isUnknown then unk
  else tru

/-- `ThreeValuedTruth.any`: TRUE when some argument is true, else UNKNOWN
when some argument is unknown, else FALSE. -/
def anyTV (args : List ThreeValuedTruth) : ThreeValuedTruth :=
  if args.any isTrue then tru
  else if args.any isUnknown then unk
  else fls

/-- `ThreeValuedTruth.not_`. -/
def notTV (t : ThreeValuedTruth) : ThreeValuedTruth :=
  if t.isTrue then fls
  else if t.isFalse then tru
  else unk

/-- `ThreeValuedTruth.to_bool`: `assert self.val != UNKNOWN` then
`bool(self.val)`; the failing assertion on UNKNOWN is modelled as
`none`. -/
def toBool : ThreeValuedTruth → Option Bool
  | fls => some false
  | tru => some true
  | unk => none

end ThreeValuedTruth

/-- The possible answers of a z3 `solver.check()` call. -/
inductive SmtRes where
  | sat
  | unsat
  | unknown
deriving DecidableEq

-- Decidable equality of `Except` results, for concrete evaluation.
deriving instance DecidableEq for Except

/-- The SMT-atom branch of `isla.evaluator.evaluate_legacy` (lines
396–405): substitute each assigned variable by the string yield of its
assigned tree, add the negation of the instantiated body to a fresh solver
(no timeout is configured — the source comment reads `# Set timeout?`),
and return `ThreeValuedTruth.from_bool(solver.check() == z3.unsat)`.
`check` is the solver oracle. -/
def evalLegacySmt (check : Z3Expr → SmtRes) (φ : Z3Expr)
    (asg : List (String × DTree)) : ThreeValuedTruth :=
  let inst := substZ3 (asg.map (fun p => (p.1, treeToString p.2))) φ
  ThreeValuedTruth.fromBool (check (.notE inst) == SmtRes.unsat)

end IslaEval

namespace Isla

/-- A one-rule grammar used by the concrete scenarios:
`<s> ::= "a"`. -/
def G0 : CGrammar := [("<s>", [["a"]])]

/-- The initial tree of a solver run over `G0`: a single open root node of
the start nonterminal. -/
def t0 : DTree := .leafO (.str "<s>") 0

/-- A complete derivation tree of `G0`: the root expanded to the terminal
`"a"`. -/
def tDone : DTree := .inner (.str "<s>") [.inner (.str "a") [] 1] 0

/-- The bound variable `x` of type `<s>`. -/
def xv : Var := mkBound "x" "<s>"

/-- The bound variable `y` of type `<s>`. -/
def yv : Var := mkBound "y" "<s>"

/-- The SMT atom `y == "a"` with free variable `y`. -/
def smtB : Formula := .smtF (.eqE (.strVar "y") (.strVal "a")) [yv] [] []

/-- The SMT atom `x == "a"` with free variable `x`. -/
def smtC : Formula := .smtF (.eqE (.strVar "x") (.strVal "a")) [xv] [] []

/-- The SMT atom `x == "a"` after the substitution `x ↦ t0`. -/
def smtCInst : Formula :=
  .smtF (.eqE (.strVar "x") (.strVal "a")) [] [xv] [(xv, t0)]

/-- A trivial SMT oracle reporting every query unsatisfiable. -/
def chk0 : Z3Expr → Bool := fun _ => false

/-- A trivial structural-predicate oracle. -/
def pev0 : String → List (Sum Var DTree) → Bool := fun _ _ => false

/-- The universal formula `∀ x ∈ t0: (∃ y ∈ x: y == "a") ∧ x == "a"` —
its top-level conjunct list is just itself, so it satisfies the invariant,
while its inner conjunction lists the existential before the SMT atom. -/
def uf4 : Formula :=
  .forallF xv (.inr t0) (.conjF (.existsF yv (.inl xv) smtB none) smtC) none

/-- The initial solution state for the claim-4 scenario. -/
def s0c4 : SolutionState := ⟨uf4, t0, []⟩

/-- The constraint of the successor state produced by matching `uf4`
against `t0`: the inner formula instantiated with `x ↦ t0`, an existential
conjunct followed by an SMT conjunct. -/
def instC4 : Formula := .conjF (.existsF yv (.inr t0) smtB none) smtCInst

/-- The successor state produced by `match_universal_formulas` for the
claim-4 scenario. -/
def s1c4 : SolutionState := ⟨instC4, t0, [(uf4, [0])]⟩

/-- The universal formula `∀ x ∈ t0: x == "a"`. -/
def uf3 : Formula := .forallF xv (.inr t0) smtC none

/-- The initial solution state for the claim-3 scenario. -/
def s0c3 : SolutionState := ⟨uf3, t0, []⟩

/-- The successor state produced by `match_universal_formulas` for the
claim-3 scenario: the constraint is the instantiated inner formula alone. -/
def s1c3 : SolutionState := ⟨smtCInst, t0, [(uf3, [0])]⟩

/-- The existential formula `∃ y ∈ t0: y == "a"` of the claim-2
scenario. -/
def ef2 : Formula := .existsF yv (.inr t0) smtB none

/-- The solution state holding `ef2` over the open tree `t0`. -/
def s0c2 : SolutionState := ⟨ef2, t0, []⟩

/-- A complete, satisfied solution state: the constraint `sc.true()` over
the complete tree `tDone`. -/
def sDone : SolutionState := ⟨trueFormula, tDone, []⟩

/-- A state whose single open concrete leaf can be freely instantiated:
the constraint `sc.true()` over the open tree `t0`. -/
def s7 : SolutionState := ⟨trueFormula, t0, []⟩

end Isla

namespace Isla

/-- C2: the claim says `eliminate_existential_formula` introduces a fresh
constant, enumerates grammar-respecting insertions and returns one
successor per insertion.  The source's body is entirely commented out: on
the dequeued state `s0c2`, whose disjunct `ef2` is an existential formula
over the open tree `t0` (an insertion of a node of type `<s>` clearly
exists in grammar `G0`), it returns the empty list, and the solver's own
`assert new_states` in the existential branch of `solve` then fails. -/
theorem claim2_eliminate_existential_returns_nothing :
    eliminateExistentialFormula ef2 ef2 t0 s0c2 = [] ∧
    existentialDispatch ef2 ef2 t0 s0c2 = .error () := by
  exact ⟨rfl, rfl⟩

/-- C3: the claim says the successor of a new universal match retains the
quantified formula `q` as a conjunct alongside the instantiation.  On the
state `s0c3` with constraint `uf3 = ∀ x ∈ t0: x == "a"` (whose bound
nonterminal `<s>` is the open leaf itself, hence still reachable),
`match_universal_formulas` produces the single successor `s1c3` whose
constraint consists of the instantiation alone — `uf3` is not among its
conjuncts. -/
theorem claim3_universal_formula_not_retained :
    matchUniversalFormulas G0 200 [uf3] uf3 s0c3 = .ok [s1c3] ∧
    quantifiedNonterminalsReachable G0 uf3 t0 = true ∧
    getConjuncts s1c3.constraint = [smtCInst] ∧
    (getConjuncts s1c3.constraint).contains uf3 = false := by
  refine ⟨by decide, by decide, by decide, by decide⟩

/-- C4: the claim says every state added to the queue satisfies the
normal-form invariant.  The state `s0c4` satisfies it (its only top-level
conjunct is a universal formula), but matching produces the successor
`s1c4` whose constraint lists an existential conjunct before an SMT
conjunct; `process_new_state` enqueues `s1c4` although
`satisfies_invariant` rejects its constraint — the defensive
`assert satisfies_invariant(formula, ...)` fails when `s1c4` is later
dequeued. -/
theorem claim4_enqueued_state_violates_invariant :
    satisfiesInvariant s0c4.constraint = true ∧
    matchUniversalFormulas G0 100 [uf4] uf4 s0c4 = .ok [s1c4] ∧
    processNewState G0 chk0 pev0 s1c4 [] = .ok ([], [s1c4]) ∧
    satisfiesInvariant s1c4.constraint = false := by
  refine ⟨by decide, by decide, by decide, by decide⟩

/-- C7: the claim says `instantiate_free_symbols` fills all freely
instantiable open leaves with grammar-driven random expansions, producing
up to `max_number_free_instantiations` complete candidate trees.  The
source's body is commented out: on the state `s7`, every open concrete
leaf of which can be freely instantiated, it returns the state itself,
unchanged and still incomplete — no leaf is filled and no complete
candidate tree is produced, whatever the bound. -/
theorem claim7_instantiate_free_symbols_stub :
    (openConcreteLeaves s7.tree).all
      (fun pl => canBeFreelyInstantiated G0 pl.1 s7.constraint s7.tree) = true ∧
    instantiateFreeSymbols s7 = [s7] ∧
    isComplete s7.tree = false := by
  refine ⟨by decide, rfl, by decide⟩

end Isla

namespace IslaEval

/-- C10: `ThreeValuedTruth.to_bool` returns `True` for TRUE and `False`
for FALSE, and fails its assertion (modelled as `none`) on UNKNOWN, so no
caller can silently coerce UNKNOWN to a boolean. -/
theorem claim10_to_bool_defined_only_on_true_false :
    ThreeValuedTruth.toBool ThreeValuedTruth.tru = some true ∧
    ThreeValuedTruth.toBool ThreeValuedTruth.fls = some false ∧
    ThreeValuedTruth.toBool ThreeValuedTruth.unk = none := by
  exact ⟨rfl, rfl, rfl⟩

/-- C8, counterexample: the claim says the SMT-atom case of
`evaluate_legacy` returns UNKNOWN when the solver times out or answers
unknown.  With a solver oracle answering `unknown`, the source's
`ThreeValuedTruth.from_bool(solver.check() == z3.unsat)` returns FALSE,
not UNKNOWN. -/
theorem claim8_unknown_gives_false :
    evalLegacySmt (fun _ => SmtRes.unknown) (.eqE (.strVar "v") (.strVal "a")) [] =
      ThreeValuedTruth.fls ∧
    ThreeValuedTruth.fls ≠ ThreeValuedTruth.unk := by
  exact ⟨rfl, by decide⟩

open Isla (Z3Expr DTree substZ3 treeToString)

/-- C8, amended: the SMT-atom case of `evaluate_legacy` substitutes each
assigned variable by the string yield of its assigned tree and checks the
negated instantiated body with the solver; it returns TRUE exactly when the
solver answers UNSAT, and FALSE both when it answers SAT and when it
answers unknown (no timeout is configured and no UNKNOWN result is ever
produced). -/
theorem claim8_amended_smt_atom_eval (check : Z3Expr → SmtRes) (φ : Z3Expr)
    (asg : List (String × DTree)) :
    evalLegacySmt check φ asg =
      ThreeValuedTruth.fromBool
        (check (.notE (substZ3 (asg.map (fun p => (p.1, treeToString p.2))) φ)) ==
          SmtRes.unsat) ∧
    (check (.notE (substZ3 (asg.map (fun p => (p.1, treeToString p.2))) φ)) =
        SmtRes.unsat → evalLegacySmt check φ asg = ThreeValuedTruth.tru) ∧
    (check (.notE (substZ3 (asg.map (fun p => (p.1, treeToString p.2))) φ)) =
        SmtRes.sat → evalLegacySmt check φ asg = ThreeValuedTruth.fls) ∧
    (check (.notE (substZ3 (asg.map (fun p => (p.1, treeToString p.2))) φ)) =
        SmtRes.unknown → evalLegacySmt check φ asg = ThreeValuedTruth.fls) := by
  refine ⟨rfl, fun h => ?_, fun h => ?_, fun h => ?_⟩ <;>
    simp [evalLegacySmt, ThreeValuedTruth.fromBool, h]

/-- C8, witness: the amended theorem applied to a solver oracle that
answers unknown on every query. -/
theorem claim8_witness :
    evalLegacySmt (fun _ => SmtRes.unknown) (.strVar "w") [] = ThreeValuedTruth.fls :=
  (claim8_amended_smt_atom_eval (fun _ => SmtRes.unknown) (.strVar "w") []).2.2.2 rfl

open ThreeValuedTruth

/-- C9: the Kleene laws of the three-valued combinators — double negation
is the identity, a TRUE conjunct and a FALSE disjunct are neutral, any
conjunction containing FALSE is FALSE, and any disjunction containing TRUE
is TRUE. -/
theorem claim9_kleene_laws :
    (∀ x, notTV (notTV x) = x) ∧
    (∀ x, allTV [tru, x] = x) ∧
    (∀ x, anyTV [fls, x] = x) ∧
    (∀ l, fls ∈ l → allTV l = fls) ∧
    (∀ l, tru ∈ l → anyTV l = tru) := by
  refine ⟨fun x => by cases x <;> rfl, fun x => by cases x <;> rfl,
    fun x => by cases x <;> rfl, fun l h => ?_, fun l h => ?_⟩
  · have ha : l.any isFalse = true := List.any_eq_true.mpr ⟨fls, h, rfl⟩
    simp [allTV, ha]
  · have ha : l.any isTrue = true := List.any_eq_true.mpr ⟨tru, h, rfl⟩
    simp [anyTV, ha]

/-- C9, witness: the list laws applied to the concrete lists
`[TRUE, FALSE]` and `[FALSE, TRUE]`. -/
theorem claim9_witness :
    allTV [tru, fls] = fls ∧ anyTV [fls, tru] = tru :=
  ⟨claim9_kleene_laws.2.2.2.1 [tru, fls] (by decide),
   claim9_kleene_laws.2.2.2.2 [fls, tru] (by decide)⟩

end IslaEval

namespace Isla

/-- The enumeration loop adds at most one solution per round. -/
theorem solveQffLoop_length (o : List Z3Expr → Option (String → String))
    (p : String → String → DTree) (c : List Var) (ts : List (Var × DTree))
    (φ : Z3Expr) : ∀ (n : Nat) (sols : List SmtSolution),
    (solveQffLoop o p c ts φ n sols).length ≤ sols.length + n := by
  intro n
  induction n with
  | zero => intro sols; simp [solveQffLoop]
  | succ n ih =>
    intro sols
    rw [solveQffLoop]
    cases ho : o (buildQuery c sols φ) with
    | none =>
      cases sols <;> simp
    | some model =>
      dsimp only
      by_cases hc : newSolutionOf p ts c model ∈ sols
      · have hcb : sols.contains (newSolutionOf p ts c model) = true := by simpa using hc
        rw [if_pos hcb]
        omega
      · have hcb : sols.contains (newSolutionOf p ts c model) = false := by simpa using hc
        rw [if_neg (by simpa using hc)]
        have := ih (sols ++ [newSolutionOf p ts c model])
        simp at this
        omega

/-- The enumeration loop preserves distinctness: a duplicate model stops
it before any repetition is recorded. -/
theorem solveQffLoop_nodup (o : List Z3Expr → Option (String → String))
    (p : String → String → DTree) (c : List Var) (ts : List (Var × DTree))
    (φ : Z3Expr) : ∀ (n : Nat) (sols : List SmtSolution), sols.Nodup →
    (solveQffLoop o p c ts φ n sols).Nodup := by
  intro n
  induction n with
  | zero => intro sols h; simpa [solveQffLoop] using h
  | succ n ih =>
    intro sols h
    rw [solveQffLoop]
    cases ho : o (buildQuery c sols φ) with
    | none => cases sols <;> simp_all
    | some model =>
      dsimp only
      by_cases hc : newSolutionOf p ts c model ∈ sols
      · have hcb : sols.contains (newSolutionOf p ts c model) = true := by simpa using hc
        rw [if_pos hcb]
        exact h
      · have hcb : sols.contains (newSolutionOf p ts c model) = false := by simpa using hc
        rw [if_neg (by simpa using hc)]
        exact ih _ (by simp [List.nodup_append, h, hc])

/-- C5: the SMT enumeration of `solve_quantifier_free_formula` returns at
most `max_number_smt_instantiations` pairwise distinct solutions; the query
of every round carries the negation of every entry of every previous
solution; a non-satisfiable first call yields the empty list, a
non-satisfiable later call yields the solutions collected so far, and a
duplicate model stops the enumeration with the solutions collected so
far. -/
theorem claim5_smt_enumeration (oracle : List Z3Expr → Option (String → String))
    (parseFn : String → String → DTree) (maxN : Nat) (f : Formula)
    (constants : List Var) (treeSubsts : List (Var × DTree)) (φ : Z3Expr) :
    (∀ sols, solveQuantifierFreeFormula oracle parseFn maxN f = .ok sols →
      sols.length ≤ maxN ∧ sols.Nodup) ∧
    (∀ (sols : List SmtSolution) (s : SmtSolution) (k : SolKey) (t : DTree),
      s ∈ sols → (k, t) ∈ s → negationOf k t ∈ buildQuery constants sols φ) ∧
    (oracle (buildQuery constants [] φ) = none →
      ∀ n, solveQffLoop oracle parseFn constants treeSubsts φ n [] = []) ∧
    (∀ (n : Nat) (sols : List SmtSolution), sols ≠ [] →
      oracle (buildQuery constants sols φ) = none →
      solveQffLoop oracle parseFn constants treeSubsts φ (n + 1) sols = sols) ∧
    (∀ (n : Nat) (sols : List SmtSolution) (model : String → String),
      oracle (buildQuery constants sols φ) = some model →
      sols.contains (newSolutionOf parseFn treeSubsts constants model) = true →
      solveQffLoop oracle parseFn constants treeSubsts φ (n + 1) sols = sols) := by
  refine ⟨fun sols hok => ?_, fun sols s k t hs hkt => ?_, fun h0 n => ?_,
    fun n sols hne hn => ?_, fun n sols model hm hdup => ?_⟩
  · rw [solveQuantifierFreeFormula] at hok
    cases hq : qfrFreeFormulaToZ3Formula f with
    | none => rw [hq] at hok; exact absurd hok (by simp)
    | some ψ =>
      rw [hq] at hok
      simp only [] at hok
      by_cases he : ((getConjuncts f).filter isSmtF).isEmpty = true
      · rw [if_pos he] at hok; exact absurd hok (by simp)
      · rw [if_neg he] at hok
        have hs := Except.ok.inj hok
        refine ⟨?_, ?_⟩
        · rw [← hs]
          simpa using solveQffLoop_length oracle parseFn _ _ ψ maxN []
        · rw [← hs]
          exact solveQffLoop_nodup oracle parseFn _ _ ψ maxN [] (by simp)
  · unfold buildQuery
    refine List.mem_append.mpr (.inl (List.mem_append.mpr (.inr ?_)))
    exact List.mem_flatMap.mpr ⟨s, hs, List.mem_map.mpr ⟨(k, t), hkt, rfl⟩⟩
  · cases n with
    | zero => rfl
    | succ n => rw [solveQffLoop, h0]; rfl
  · rw [solveQffLoop, hn]
    cases sols with
    | nil => exact absurd rfl hne
    | cons a l => rfl
  · rw [solveQffLoop, hm]
    have hd : newSolutionOf parseFn treeSubsts constants model ∈ sols := by simpa using hdup
    simp [hd]

/-- C5, witness: the enumeration facts at concrete oracles — an
always-unsat oracle yields no solution from the empty start and returns a
nonempty collection unchanged, the blocking negation of a previous solution
occurs in the next query, and a duplicated model stops the loop. -/
theorem claim5_witness :
    solveQffLoop (fun _ => none) (fun _ _ => t0) [xv] [] (.boolVal true) 5 [] = [] ∧
    negationOf (SolKey.kvar xv) t0 ∈
      buildQuery [xv] [[(SolKey.kvar xv, t0)]] (.boolVal true) ∧
    solveQffLoop (fun _ => none) (fun _ _ => t0) [xv] [] (.boolVal true) (3 + 1)
      [[(SolKey.kvar xv, t0)]] = [[(SolKey.kvar xv, t0)]] ∧
    solveQffLoop (fun _ => some (fun _ => "a")) (fun _ _ => t0) [xv] []
      (.boolVal true) (3 + 1) [[(SolKey.kvar xv, t0)]] = [[(SolKey.kvar xv, t0)]] ∧
    (∀ sols, solveQuantifierFreeFormula (fun _ => none) (fun _ _ => t0) 3 smtC = .ok sols →
      sols.length ≤ 3 ∧ sols.Nodup) := by
  refine ⟨?_, ?_, ?_, ?_, ?_⟩
  · exact (claim5_smt_enumeration (fun _ => none) (fun _ _ => t0) 3 smtC
      [xv] [] (.boolVal true)).2.2.1 rfl 5
  · exact (claim5_smt_enumeration (fun _ => none) (fun _ _ => t0) 3 smtC
      [xv] [] (.boolVal true)).2.1 [[(SolKey.kvar xv, t0)]] [(SolKey.kvar xv, t0)]
      (SolKey.kvar xv) t0 (by simp) (by simp)
  · exact (claim5_smt_enumeration (fun _ => none) (fun _ _ => t0) 3 smtC
      [xv] [] (.boolVal true)).2.2.2.1 3 [[(SolKey.kvar xv, t0)]] (by decide) rfl
  · exact (claim5_smt_enumeration (fun _ => some (fun _ => "a")) (fun _ _ => t0) 3 smtC
      [xv] [] (.boolVal true)).2.2.2.2 3 [[(SolKey.kvar xv, t0)]] (fun _ => "a") rfl
      (by decide)
  · exact (claim5_smt_enumeration (fun _ => none) (fun _ _ => t0) 3 smtC
      [xv] [] (.boolVal true)).1

/-- Looking up a key in a one-step extended association list. -/
theorem lookupAM_cons (e : Formula × List Nat) (rest : AMatched) (q : Formula) :
    lookupAM (e :: rest) q = if e.1 = q then e.2 else lookupAM rest q := by
  by_cases he : e.1 = q
  · rw [if_pos he]
    unfold lookupAM
    rw [List.find?_cons_of_pos _ (by simp [he])]
    rfl
  · rw [if_neg he]
    unfold lookupAM
    rw [List.find?_cons_of_neg _ (by simp [he])]

/-- Key presence in a one-step extended association list. -/
theorem hasKeyAM_cons (e : Formula × List Nat) (rest : AMatched) (q : Formula) :
    hasKeyAM (e :: rest) q = if e.1 = q then true else hasKeyAM rest q := by
  by_cases he : e.1 = q
  · rw [if_pos he]
    unfold hasKeyAM
    rw [List.find?_cons_of_pos _ (by simp [he])]
    rfl
  · rw [if_neg he]
    unfold hasKeyAM
    rw [List.find?_cons_of_neg _ (by simp [he])]

/-- Every id present after an `addAM` was present before or is the id just
added. -/
theorem mem_lookupAM_addAM (am : AMatched) (f : Formula) (i j : Nat)
    (h : j ∈ lookupAM (addAM am f i) f) : j ∈ lookupAM am f ∨ j = i := by
  induction am with
  | nil =>
    rw [addAM, lookupAM_cons, if_pos rfl] at h
    simp at h
    exact .inr h
  | cons e rest ih =>
    obtain ⟨g, ids⟩ := e
    rw [addAM] at h
    by_cases hg : g = f
    · rw [if_pos (by simp [hg]), lookupAM_cons, if_pos hg] at h
      rw [lookupAM_cons, if_pos hg]
      by_cases hi : ids.contains i = true
      · rw [if_pos hi] at h
        exact .inl h
      · rw [if_neg hi] at h
        rcases List.mem_append.mp h with h1 | h1
        · exact .inl h1
        · simp at h1
          exact .inr h1
    · rw [if_neg (by simp [hg]), lookupAM_cons, if_neg hg] at h
      rw [lookupAM_cons, if_neg hg]
      exact ih h

/-- An id found in a lookup means the key is present. -/
theorem hasKeyAM_of_mem_lookupAM (am : AMatched) (q : Formula) (i : Nat)
    (h : i ∈ lookupAM am q) : hasKeyAM am q = true := by
  unfold lookupAM at h
  unfold hasKeyAM
  cases hf : am.find? (fun p => p.1 == q) with
  | none => rw [hf] at h; simp at h
  | some e => simp [hf]

/-- Association-list lookup distributes over append, preferring the left
list when it has the key. -/
theorem lookupAM_append (A B : AMatched) (q : Formula) :
    lookupAM (A ++ B) q =
      if hasKeyAM A q = true then lookupAM A q else lookupAM B q := by
  induction A with
  | nil => simp [hasKeyAM, lookupAM]
  | cons e rest ih =>
    by_cases he : e.1 = q
    · rw [List.cons_append, lookupAM_cons, if_pos he, lookupAM_cons, if_pos he,
        if_pos (by rw [hasKeyAM_cons, if_pos he])]
    · rw [List.cons_append, lookupAM_cons, if_neg he, ih, hasKeyAM_cons, if_neg he,
        lookupAM_cons, if_neg he]

/-- The mapped left part of `mergeAM` has the same keys as the original. -/
theorem hasKeyAM_mapMerge (old new : AMatched) (q : Formula) :
    hasKeyAM (old.map (fun p =>
      (p.1, if hasKeyAM new p.1 = true then lookupAM new p.1 else p.2))) q =
    hasKeyAM old q := by
  induction old with
  | nil => rfl
  | cons e rest ih =>
    by_cases he : e.1 = q
    · rw [List.map_cons, hasKeyAM_cons, hasKeyAM_cons]
      simp [he]
    · rw [List.map_cons, hasKeyAM_cons, hasKeyAM_cons]
      simp only [he, if_false, if_neg]
      exact ih

/-- Looking up a key of `old` in the mapped left part of `mergeAM` yields
the `new` value when `new` has the key. -/
theorem lookupAM_mapMerge (old new : AMatched) (q : Formula)
    (hk : hasKeyAM new q = true) (ho : hasKeyAM old q = true) :
    lookupAM (old.map (fun p =>
      (p.1, if hasKeyAM new p.1 = true then lookupAM new p.1 else p.2))) q =
    lookupAM new q := by
  induction old with
  | nil => simp [hasKeyAM] at ho
  | cons e rest ih =>
    by_cases he : e.1 = q
    · rw [List.map_cons, lookupAM_cons]
      have hpe : (e.1, if hasKeyAM new e.1 = true then lookupAM new e.1 else e.2).1 = q := he
      rw [if_pos hpe]
      dsimp only
      rw [he, if_pos hk]
    · rw [hasKeyAM_cons, if_neg he] at ho
      rw [List.map_cons, lookupAM_cons]
      have hpe : ¬((e.1, if hasKeyAM new e.1 = true then lookupAM new e.1 else e.2).1 = q) := he
      rw [if_neg hpe]
      exact ih ho

/-- Looking up a key absent from `old` in the filtered right part of
`mergeAM` is a lookup in `new`. -/
theorem lookupAM_filterMerge (old new : AMatched) (q : Formula)
    (ho : hasKeyAM old q = false) :
    lookupAM (new.filter (fun p => !(hasKeyAM old p.1))) q = lookupAM new q := by
  induction new with
  | nil => rfl
  | cons e rest ih =>
    by_cases he : e.1 = q
    · have hp : hasKeyAM old e.1 = false := by rw [he]; exact ho
      rw [List.filter_cons, if_pos (by simp [hp]), lookupAM_cons, if_pos he,
        lookupAM_cons, if_pos he]
    · cases hp : hasKeyAM old e.1 with
      | true =>
        rw [List.filter_cons, if_neg (by simp [hp]), lookupAM_cons, if_neg he, ih]
      | false =>
        rw [List.filter_cons, if_pos (by simp [hp]), lookupAM_cons, if_neg he,
          lookupAM_cons, if_neg he, ih]

/-- A key present in `new` is looked up in `mergeAM old new` with its `new`
value — the Python dict union lets `new` override `old`. -/
theorem lookupAM_mergeAM_of_hasKey (old new : AMatched) (q : Formula)
    (hq : hasKeyAM new q = true) :
    lookupAM (mergeAM old new) q = lookupAM new q := by
  unfold mergeAM
  rw [lookupAM_append]
  cases ho : hasKeyAM old q with
  | true =>
    rw [if_pos (by rw [hasKeyAM_mapMerge]; exact ho)]
    exact lookupAM_mapMerge old new q hq ho
  | false =>
    rw [if_neg (by rw [hasKeyAM_mapMerge, ho]; simp)]
    exact lookupAM_filterMerge old new q ho

/-- Every id recorded by the match-processing loop beyond the accumulator
was not in the state's `already_matched` set for the formula. -/
theorem mem_processMatches_not_already (s : SolutionState) (uf : Formula)
    (bv : Var) (inner : Formula) : ∀ (ms : List QMatch) (acc : Formula × AMatched)
    (i : Nat), i ∈ lookupAM (processMatches s uf bv inner ms acc).2 uf →
    i ∈ lookupAM acc.2 uf ∨
      (lookupAM s.alreadyMatched uf).contains i = false := by
  intro ms
  induction ms with
  | nil => intro acc i h; exact .inl h
  | cons m ms ih =>
    intro acc i h
    rw [processMatches] at h
    cases hf : (m.find? (fun vps => vps.1 == bv)).map (fun vps => vps.2.2) with
    | none => rw [hf] at h; exact ih _ _ h
    | some bt =>
      rw [hf] at h
      dsimp only at h
      by_cases ham : isAlreadyMatched s uf bt = true
      · rw [if_pos ham] at h
        exact ih _ _ h
      · rw [if_neg ham] at h
        rcases ih _ _ h with h1 | h1
        · rcases mem_lookupAM_addAM _ _ _ _ h1 with h2 | h2
          · exact .inl h2
          · subst h2
            right
            unfold isAlreadyMatched at ham
            simpa using ham
        · exact .inr h1

/-- C6: within `match_universal_formulas`, a match whose bound-variable
subtree id is already recorded in the state's `already_matched` map is
skipped — every id newly recorded by the match loop was not recorded
before — and the successor state's map `already_matched | matched` contains
every newly recorded id. -/
theorem claim6_already_matched_skip_and_record :
    (∀ (s : SolutionState) (uf : Formula) (bv : Var) (inner : Formula)
        (ms : List QMatch) (acc : Formula × AMatched) (i : Nat),
      i ∈ lookupAM (processMatches s uf bv inner ms acc).2 uf →
      i ∈ lookupAM acc.2 uf ∨
        (lookupAM s.alreadyMatched uf).contains i = false) ∧
    (∀ (s : SolutionState) (matched : AMatched) (q : Formula) (i : Nat),
      i ∈ lookupAM matched q →
      i ∈ lookupAM (mergeAM s.alreadyMatched matched) q) := by
  constructor
  · exact fun s uf bv inner ms acc i h =>
      mem_processMatches_not_already s uf bv inner ms acc i h
  · intro s matched q i h
    rw [lookupAM_mergeAM_of_hasKey _ _ _ (hasKeyAM_of_mem_lookupAM _ _ _ h)]
    exact h

/-- C6, witness: the concrete claim-3 scenario — the single match of `uf3`
on the open root records id 0, which was not already matched, and the
merged successor map contains it. -/
theorem claim6_witness :
    (0 ∈ lookupAM ([] : AMatched) uf3 ∨
      (lookupAM s0c3.alreadyMatched uf3).contains 0 = false) ∧
    0 ∈ lookupAM (mergeAM s0c3.alreadyMatched [(uf3, [0])]) uf3 :=
  ⟨claim6_already_matched_skip_and_record.1 s0c3 uf3 xv smtC [[(xv, ([], t0))]]
      (uf3, []) 0 (by decide),
   claim6_already_matched_skip_and_record.2 s0c3 [(uf3, [0])] uf3 0 (by decide)⟩

end Isla
